import Mathlib

/-!
Verification of the video-bookmark manager (single-page application).

The data model and the operations below are shallow embeddings of the
TypeScript source: the `Video` record and the `VideoStatus` / `VideoCategory`
string enums come from `types.ts` (inlined at the end of `VideoCard.tsx`),
the store handlers and the derived `filteredVideos` view come from `App.tsx`,
and the generation-client operations come from `geminiService.ts`.

Browser-supplied values (the generated UUID, the current timestamp, the
endpoint call outcome, and the platform JSON parser) are passed as explicit
parameters; everything else is translated statement by statement.
-/

/-- `enum VideoStatus` from `types.ts`: a closed enumeration of five
string values. -/
inductive VideoStatus where
  | UNWATCHED
  | WATCHING
  | COMPLETED
  | ARCHIVED
  | TRASH
deriving DecidableEq

/-- The string value backing each `VideoStatus` enum member. -/
def statusToStr : VideoStatus → String
  | .UNWATCHED => "未看"
  | .WATCHING => "观看中"
  | .COMPLETED => "已看完"
  | .ARCHIVED => "已归档"
  | .TRASH => "待清理"

/-- Recover a `VideoStatus` from its backing string (used when reading the
persisted JSON form back). -/
def statusFromStr (s : String) : Option VideoStatus :=
  if s = "未看" then some .UNWATCHED
  else if s = "观看中" then some .WATCHING
  else if s = "已看完" then some .COMPLETED
  else if s = "已归档" then some .ARCHIVED
  else if s = "待清理" then some .TRASH
  else none

/-- `enum VideoCategory` from `types.ts`: a closed enumeration of eight
string values. -/
inductive VideoCategory where
  | PROGRAMMING
  | FITNESS
  | LANGUAGE
  | DESIGN
  | BUSINESS
  | SCIENCE
  | ENTERTAINMENT
  | OTHER
deriving DecidableEq

/-- The string value backing each `VideoCategory` enum member. -/
def categoryToStr : VideoCategory → String
  | .PROGRAMMING => "编程开发"
  | .FITNESS => "健身运动"
  | .LANGUAGE => "语言学习"
  | .DESIGN => "设计艺术"
  | .BUSINESS => "商业财经"
  | .SCIENCE => "科普知识"
  | .ENTERTAINMENT => "娱乐休闲"
  | .OTHER => "其他"

/-- Recover a `VideoCategory` from its backing string.  `isSome` of this
function is exactly the membership test
`Object.values(VideoCategory).includes(s)` from `geminiService.ts`. -/
def categoryFromStr (s : String) : Option VideoCategory :=
  if s = "编程开发" then some .PROGRAMMING
  else if s = "健身运动" then some .FITNESS
  else if s = "语言学习" then some .LANGUAGE
  else if s = "设计艺术" then some .DESIGN
  else if s = "商业财经" then some .BUSINESS
  else if s = "科普知识" then some .SCIENCE
  else if s = "娱乐休闲" then some .ENTERTAINMENT
  else if s = "其他" then some .OTHER
  else none

/-- `interface Video` from `types.ts`.  `aiSummary?` is an optional field. -/
structure Video where
  id : String
  title : String
  url : String
  tags : List String
  category : VideoCategory
  status : VideoStatus
  addedAt : String
  notes : String
  aiSummary : Option String
deriving DecidableEq

/-- `interface VideoFormData` from `types.ts`: the submitted form carries
only the six editable fields; identifier and creation timestamp are absent. -/
structure VideoFormData where
  title : String
  url : String
  tags : List String
  category : VideoCategory
  status : VideoStatus
  notes : String
deriving DecidableEq

/-- The record built by `handleCreate` in `App.tsx`:
`{ ...data, id: crypto.randomUUID(), addedAt: new Date().toISOString() }`.
The generated UUID and timestamp are passed in as parameters. -/
def mkVideo (data : VideoFormData) (newId addedAt : String) : Video :=
  { id := newId
    title := data.title
    url := data.url
    tags := data.tags
    category := data.category
    status := data.status
    addedAt := addedAt
    notes := data.notes
    aiSummary := none }

/-- `handleCreate` in `App.tsx`: `setVideos(prev => [newVideo, ...prev])`. -/
def handleCreate (data : VideoFormData) (newId addedAt : String)
    (prev : List Video) : List Video :=
  mkVideo data newId addedAt :: prev

/-- The record produced by the spread `{ ...v, ...data }` in `handleUpdate`:
the six form fields overwrite the old values, everything else is kept. -/
def applyFormData (v : Video) (data : VideoFormData) : Video :=
  { v with
    title := data.title
    url := data.url
    tags := data.tags
    category := data.category
    status := data.status
    notes := data.notes }

/-- `handleUpdate` in `App.tsx`:
`setVideos(prev => prev.map(v => v.id === editingVideo.id ? { ...v, ...data } : v))`. -/
def handleUpdate (editingId : String) (data : VideoFormData)
    (prev : List Video) : List Video :=
  prev.map (fun v => if v.id = editingId then applyFormData v data else v)

/-- `handleDelete` in `App.tsx`: behind a `window.confirm` gate,
`setVideos(prev => prev.filter(v => v.id !== id))`.  The confirmation
outcome is passed in as a parameter. -/
def handleDelete (confirmed : Bool) (id : String) (prev : List Video) :
    List Video :=
  if confirmed then prev.filter (fun v => !(v.id == id)) else prev

/-- C6: the create operation builds the new record from the submitted form
plus a store-assigned identifier and creation timestamp (the form data has
no identifier or timestamp field), prepends it, and the pre-existing
records follow unchanged in order. -/
theorem handleCreate_spec (data : VideoFormData) (newId ts : String)
    (prev : List Video) :
    (handleCreate data newId ts prev).length = prev.length + 1
    ∧ (handleCreate data newId ts prev).head? = some (mkVideo data newId ts)
    ∧ (handleCreate data newId ts prev).tail = prev
    ∧ (∀ n : Nat, (handleCreate data newId ts prev)[n + 1]? = prev[n]?)
    ∧ (mkVideo data newId ts).id = newId
    ∧ (mkVideo data newId ts).addedAt = ts
    ∧ (mkVideo data newId ts).title = data.title
    ∧ (mkVideo data newId ts).url = data.url
    ∧ (mkVideo data newId ts).tags = data.tags
    ∧ (mkVideo data newId ts).category = data.category
    ∧ (mkVideo data newId ts).status = data.status
    ∧ (mkVideo data newId ts).notes = data.notes
    ∧ (mkVideo data newId ts).aiSummary = none := by
  refine ⟨rfl, rfl, rfl, fun n => ?_, rfl, rfl, rfl, rfl, rfl, rfl, rfl, rfl, rfl⟩
  simp [handleCreate]

/-- C4: updating by an identifier present in the list rewrites exactly the
matching positions with the submitted editable fields, keeps each matching
record's identifier and original creation timestamp, and leaves every
record with a different identifier unchanged. -/
theorem handleUpdate_spec (videos : List Video) (id : String)
    (data : VideoFormData) (hmem : id ∈ videos.map Video.id) :
    (handleUpdate id data videos).length = videos.length
    ∧ (∀ n : Nat, (handleUpdate id data videos)[n]? =
        (videos[n]?).map (fun v => if v.id = id then applyFormData v data else v))
    ∧ (∀ v : Video, (applyFormData v data).id = v.id
        ∧ (applyFormData v data).addedAt = v.addedAt
        ∧ (applyFormData v data).aiSummary = v.aiSummary
        ∧ (applyFormData v data).title = data.title
        ∧ (applyFormData v data).url = data.url
        ∧ (applyFormData v data).tags = data.tags
        ∧ (applyFormData v data).category = data.category
        ∧ (applyFormData v data).status = data.status
        ∧ (applyFormData v data).notes = data.notes) := by
  refine ⟨by simp [handleUpdate], fun n => ?_, fun v => ?_⟩
  · simp [handleUpdate]
  · exact ⟨rfl, rfl, rfl, rfl, rfl, rfl, rfl, rfl, rfl⟩

/-- Instantiation of `handleUpdate_spec` at a concrete store and form. -/
def wForm : VideoFormData :=
  { title := "New", url := "nu", tags := ["t"], category := .DESIGN
    status := .COMPLETED, notes := "n" }

/-- A concrete record used in witnesses and counterexamples. -/
def vA : Video :=
  { id := "a", title := "Alpha", url := "ua", tags := ["x"]
    category := .PROGRAMMING, status := .UNWATCHED, addedAt := "t1"
    notes := "", aiSummary := none }

/-- A second concrete record. -/
def vB : Video :=
  { id := "b", title := "Beta", url := "ub", tags := ["y"]
    category := .FITNESS, status := .COMPLETED, addedAt := "t2"
    notes := "", aiSummary := some "s" }

/-- A third concrete record. -/
def vC : Video :=
  { id := "c", title := "Gamma", url := "uc", tags := []
    category := .OTHER, status := .WATCHING, addedAt := "t3"
    notes := "k", aiSummary := none }

theorem handleUpdate_spec_witness :
    ("a" ∈ [vA, vB].map Video.id)
    ∧ (handleUpdate "a" wForm [vA, vB]).length = [vA, vB].length := by
  refine ⟨by decide, (handleUpdate_spec [vA, vB] "a" wForm (by decide)).1⟩

/-- C5: when identifiers are unique and the identifier is present, deletion
(after the confirmation step) splits the list around the single matching
record and removes exactly it, leaving the rest in relative order. -/
theorem handleDelete_spec (videos : List Video) (id : String)
    (h1 : (videos.map Video.id).Nodup) (h2 : id ∈ videos.map Video.id) :
    ∃ l1 l2 v, videos = l1 ++ v :: l2 ∧ v.id = id
      ∧ handleDelete true id videos = l1 ++ l2 := by
  induction videos with
  | nil => simp at h2
  | cons w rest ih =>
    simp only [List.map_cons, List.nodup_cons, List.mem_map] at h1
    rcases h2 with h2
    simp only [List.map_cons, List.mem_cons, List.mem_map] at h2
    by_cases hw : w.id = id
    · refine ⟨[], rest, w, by simp, hw, ?_⟩
      have hrest : List.filter (fun v => !(v.id == id)) rest = rest := by
        rw [List.filter_eq_self]
        intro v hv
        simp only [Bool.not_eq_eq_eq_not, Bool.not_true, beq_eq_false_iff_ne, ne_eq]
        intro hvid
        exact h1.1 ⟨v, hv, by rw [hvid, hw]⟩
      simp [handleDelete, List.filter_cons, hw, hrest]
    · have h2' : id ∈ rest.map Video.id := by
        rcases h2 with h | ⟨v, hv, hvid⟩
        · exact absurd h.symm hw
        · exact List.mem_map.mpr ⟨v, hv, hvid⟩
      obtain ⟨l1, l2, v, hsplit, hvid, hdel⟩ := ih h1.2 h2'
      refine ⟨w :: l1, l2, v, by rw [hsplit]; rfl, hvid, ?_⟩
      have hdel' : List.filter (fun v => !(v.id == id)) rest = l1 ++ l2 := by
        simpa [handleDelete] using hdel
      simp [handleDelete, List.filter_cons, hw, hdel']

theorem handleDelete_spec_witness :
    (([vA, vB].map Video.id).Nodup ∧ "a" ∈ [vA, vB].map Video.id)
    ∧ ∃ l1 l2 v, [vA, vB] = l1 ++ v :: l2 ∧ v.id = "a"
        ∧ handleDelete true "a" [vA, vB] = l1 ++ l2 := by
  exact ⟨⟨by decide, by decide⟩,
    handleDelete_spec [vA, vB] "a" (by decide) (by decide)⟩

/-- JS `String.prototype.includes` on the character-list level: does `sub`
occur contiguously inside the list? -/
def hasSub (sub : List Char) : List Char → Bool
  | [] => sub.isEmpty
  | c :: t => sub.isPrefixOf (c :: t) || hasSub sub t

/-- `s.includes(sub)` for Lean strings. -/
def jsIncludes (s sub : String) : Bool := hasSub sub.data s.data

/-- `String.prototype.toLowerCase`, modelled character by character (the
ASCII fragment, via `Char.toLower`). -/
def jsToLower (s : String) : String := String.mk (s.data.map Char.toLower)

/-- The text predicate of the standard filtering branch in `App.tsx`:
`video.title.toLowerCase().includes(q.toLowerCase()) ||
 video.tags.some(t => t.toLowerCase().includes(q.toLowerCase()))`. -/
def textMatches (video : Video) (q : String) : Bool :=
  jsIncludes (jsToLower video.title) (jsToLower q)
  || video.tags.any (fun t => jsIncludes (jsToLower t) (jsToLower q))

/-- `new Map(videos.map(v => [v.id, v])).get(id)`: a JS `Map` built from an
entry list keeps the **last** binding for each key, so the lookup is a left
fold in which later entries overwrite earlier ones. -/
def jsMapGet (videos : List Video) (id : String) : Option Video :=
  videos.foldl (fun acc v => if v.id == id then some v else acc) none

/-- The derived `filteredVideos` view in `App.tsx`.  The `'ALL'` sentinel of
the two select filters is modelled as `none`.  In the AI branch the source
computes `aiMatchedIds.map(id => matchedMap.get(id)).filter(v => !!v)`. -/
def filteredVideos (videos : List Video) (searchQuery : String)
    (statusFilter : Option VideoStatus) (categoryFilter : Option VideoCategory)
    (isAiSearchMode : Bool) (aiMatchedIds : List String)
    (aiSearchPerformed : Bool) : List Video :=
  if isAiSearchMode && aiSearchPerformed then
    (aiMatchedIds.map (fun id => jsMapGet videos id)).filterMap (fun x => x)
  else
    videos.filter (fun video =>
      (if isAiSearchMode then true else textMatches video searchQuery)
      && (match statusFilter with | none => true | some s => video.status == s)
      && (match categoryFilter with | none => true | some c => video.category == c))

/-- A `foldl` step of `jsMapGet` never moves a `some` accumulator back to a
value with the wrong identifier. -/
theorem jsMapGet_id (videos : List Video) (i : String) :
    ∀ w : Video, jsMapGet videos i = some w → w.id = i := by
  suffices h : ∀ (acc : Option Video),
      (∀ u : Video, acc = some u → u.id = i) →
      ∀ w : Video,
        videos.foldl (fun acc v => if v.id == i then some v else acc) acc = some w →
        w.id = i by
    intro w hw
    exact h none (by simp) w hw
  induction videos with
  | nil => intro acc hacc w hw; exact hacc w hw
  | cons v rest ih =>
    intro acc hacc w hw
    simp only [List.foldl_cons] at hw
    refine ih (if v.id == i then some v else acc) ?_ w hw
    intro u hu
    by_cases hv : v.id == i
    · rw [if_pos hv] at hu
      cases hu
      exact eq_of_beq hv
    · rw [if_neg hv] at hu
      exact hacc u hu

/-- If no element of the list carries the key, the `jsMapGet` fold keeps the
accumulator. -/
theorem jsMapGet_foldl_const (videos : List Video) (i : String)
    (h : ∀ w ∈ videos, w.id ≠ i) (acc : Option Video) :
    videos.foldl (fun acc v => if v.id == i then some v else acc) acc = acc := by
  induction videos generalizing acc with
  | nil => rfl
  | cons v rest ih =>
    simp only [List.foldl_cons]
    have hv : ¬ (v.id == i) = true := by
      simp only [beq_iff_eq]
      exact h v (by simp)
    rw [if_neg hv]
    exact ih (fun w hw => h w (by simp [hw])) acc

/-- Under unique identifiers, the JS `Map` lookup agrees with the first
match of a linear search. -/
theorem jsMapGet_eq_findFirst (videos : List Video) (i : String)
    (h : (videos.map Video.id).Nodup) :
    jsMapGet videos i = videos.find? (fun v => v.id == i) := by
  induction videos with
  | nil => rfl
  | cons v rest ih =>
    simp only [List.map_cons, List.nodup_cons, List.mem_map] at h
    cases hbeq : (v.id == i) with
    | true =>
      have hi : v.id = i := eq_of_beq hbeq
      have hnone : ∀ w ∈ rest, w.id ≠ i := by
        intro w hw hwi
        exact h.1 ⟨w, hw, by rw [hwi, hi]⟩
      simp only [jsMapGet, List.foldl_cons, hbeq, if_true]
      rw [jsMapGet_foldl_const rest i hnone (some v)]
      simp [List.find?_cons, hbeq]
    | false =>
      simp only [jsMapGet, List.foldl_cons, hbeq]
      simp only [List.find?_cons, hbeq]
      have := ih h.2
      simpa [jsMapGet] using this

/-- Under unique identifiers, looking up a stored record's own identifier
returns that record. -/
theorem jsMapGet_self (videos : List Video) (v : Video)
    (h : (videos.map Video.id).Nodup) (hv : v ∈ videos) :
    jsMapGet videos v.id = some v := by
  rw [jsMapGet_eq_findFirst videos v.id h]
  induction videos with
  | nil => simp at hv
  | cons w rest ih =>
    simp only [List.map_cons, List.nodup_cons, List.mem_map] at h
    rcases List.mem_cons.mp hv with rfl | hv'
    · simp [List.find?_cons]
    · have hw : (w.id == v.id) = false := by
        simp only [beq_eq_false_iff_ne, ne_eq]
        intro hwv
        exact h.1 ⟨v, hv', hwv.symm⟩
      simp only [List.find?_cons, hw]
      exact ih h.2 hv'

/-- C1: in AI mode with a search performed, the visible list is exactly the
records resolved from the AI-returned id list, in the order of that list;
an id with no stored record is dropped, and a stored record whose id is not
in the list is excluded no matter what the text/status/category filters
are. -/
theorem aiModeFilter_exact (videos : List Video) (q : String)
    (sf : Option VideoStatus) (cf : Option VideoCategory) (ids : List String)
    (h : (videos.map Video.id).Nodup) :
    filteredVideos videos q sf cf true ids true
      = ids.filterMap (fun i => videos.find? (fun v => v.id == i))
    ∧ ∀ v : Video, v ∈ videos → v.id ∉ ids →
        v ∉ filteredVideos videos q sf cf true ids true := by
  have hmain : filteredVideos videos q sf cf true ids true
      = ids.filterMap (fun i => videos.find? (fun v => v.id == i)) := by
    simp only [filteredVideos, Bool.and_self, if_pos rfl]
    rw [List.filterMap_map]
    refine List.filterMap_congr ?_
    intro i _
    exact jsMapGet_eq_findFirst videos i h
  refine ⟨hmain, ?_⟩
  intro v _ hvid hvin
  rw [hmain] at hvin
  obtain ⟨i, hi, hfind⟩ := List.mem_filterMap.mp hvin
  have : v.id = i := by
    have := List.find?_some hfind
    exact eq_of_beq this
  exact hvid (this ▸ hi)

theorem aiModeFilter_exact_witness :
    (([vA, vB, vC].map Video.id).Nodup)
    ∧ filteredVideos [vA, vB, vC] "" none none true ["b", "a"] true
        = (["b", "a"] : List String).filterMap
            (fun i => [vA, vB, vC].find? (fun v => v.id == i))
    ∧ vC ∉ filteredVideos [vA, vB, vC] "" none none true ["b", "a"] true := by
  refine ⟨by decide, (aiModeFilter_exact [vA, vB, vC] "" none none ["b", "a"]
    (by decide)).1, (aiModeFilter_exact [vA, vB, vC] "" none none ["b", "a"]
    (by decide)).2 vC (by decide) (by decide)⟩

/-- C10: the AI branch does not deduplicate the returned id list: each
occurrence of a stored record's identifier contributes one occurrence of
that record to the visible list. -/
theorem aiModeFilter_count (videos : List Video) (q : String)
    (sf : Option VideoStatus) (cf : Option VideoCategory) (ids : List String)
    (v : Video) (h1 : (videos.map Video.id).Nodup) (h2 : v ∈ videos) :
    (filteredVideos videos q sf cf true ids true).count v = ids.count v.id := by
  have hself : jsMapGet videos v.id = some v := jsMapGet_self videos v h1 h2
  have hform : filteredVideos videos q sf cf true ids true
      = ids.filterMap (fun i => jsMapGet videos i) := by
    show (ids.map (fun i => jsMapGet videos i)).filterMap (fun x => x) = _
    rw [List.filterMap_map]
    rfl
  rw [hform]
  clear hform
  induction ids with
  | nil => rfl
  | cons i rest ih =>
    by_cases hi : i = v.id
    · subst hi
      simp only [List.filterMap_cons, hself, List.count_cons_self]
      rw [ih]
    · cases hget : jsMapGet videos i with
      | none =>
        simp only [List.filterMap_cons, hget]
        rw [List.count_cons_of_ne (Ne.symm hi)]
        exact ih
      | some w =>
        have hwid : w.id = i := jsMapGet_id videos i w hget
        have hwv : v ≠ w := by
          intro hwv
          rw [← hwv] at hwid
          exact hi hwid.symm
        simp only [List.filterMap_cons, hget]
        rw [List.count_cons_of_ne hwv, List.count_cons_of_ne (Ne.symm hi)]
        exact ih

theorem aiModeFilter_count_witness :
    (([vA, vB].map Video.id).Nodup ∧ vA ∈ [vA, vB])
    ∧ (filteredVideos [vA, vB] "" none none true ["a", "b", "a"] true).count vA
        = (["a", "b", "a"] : List String).count vA.id := by
  exact ⟨⟨by decide, by decide⟩,
    aiModeFilter_count [vA, vB] "" none none ["a", "b", "a"] vA
      (by decide) (by decide)⟩

/-- The empty string is a substring of every string, so with an empty query
the text predicate accepts every record (JS `"x".includes("")` is true). -/
theorem hasSub_nil (l : List Char) : hasSub [] l = true := by
  cases l <;> simp [hasSub, List.isEmpty]

theorem textMatches_empty (v : Video) : textMatches v "" = true := by
  have h : jsIncludes (jsToLower v.title) (jsToLower "") = true := by
    simp [jsIncludes, jsToLower, hasSub_nil]
  simp [textMatches, h]

/-- C3: in standard mode a record is visible iff it passes the
case-insensitive text predicate (title or some tag contains the query), the
status filter (`none` models the `'ALL'` sentinel) and the category filter;
a status filter alone selects exactly the records with that status, and a
text query combined with a category filter is the composition (hence the
intersection) of the two predicates. -/
theorem standardModeFilter_spec (videos : List Video) (q : String)
    (sf : Option VideoStatus) (cf : Option VideoCategory)
    (ids : List String) (perf : Bool) :
    (∀ v : Video, v ∈ filteredVideos videos q sf cf false ids perf ↔
        v ∈ videos
        ∧ (jsIncludes (jsToLower v.title) (jsToLower q) = true
            ∨ ∃ t ∈ v.tags, jsIncludes (jsToLower t) (jsToLower q) = true)
        ∧ (sf = none ∨ sf = some v.status)
        ∧ (cf = none ∨ cf = some v.category))
    ∧ (∀ s : VideoStatus, filteredVideos videos "" (some s) none false ids perf
        = videos.filter (fun v => v.status == s))
    ∧ (∀ c : VideoCategory, filteredVideos videos q none (some c) false ids perf
        = (videos.filter (fun v => textMatches v q)).filter
            (fun v => v.category == c)) := by
  have hred : ∀ (q : String) sf cf, filteredVideos videos q sf cf false ids perf
      = videos.filter (fun v =>
          textMatches v q
          && (match sf with | none => true | some s => v.status == s)
          && (match cf with | none => true | some c => v.category == c)) :=
    fun _ _ _ => rfl
  refine ⟨fun v => ?_, fun s => ?_, fun c => ?_⟩
  · rw [hred, List.mem_filter]
    refine and_congr_right fun _ => ?_
    have hstat : ((match sf with
        | none => true | some s => v.status == s) = true)
        ↔ (sf = none ∨ sf = some v.status) := by
      cases sf with
      | none => simp
      | some s =>
        constructor
        · intro h
          exact Or.inr (congrArg some (eq_of_beq h).symm)
        · rintro (h | h)
          · exact Option.noConfusion h
          · exact beq_iff_eq.mpr (Option.some.inj h).symm
    have hcat : ((match cf with
        | none => true | some c => v.category == c) = true)
        ↔ (cf = none ∨ cf = some v.category) := by
      cases cf with
      | none => simp
      | some c =>
        constructor
        · intro h
          exact Or.inr (congrArg some (eq_of_beq h).symm)
        · rintro (h | h)
          · exact Option.noConfusion h
          · exact beq_iff_eq.mpr (Option.some.inj h).symm
    rw [Bool.and_eq_true, Bool.and_eq_true, hstat, hcat, and_assoc]
    refine and_congr_left fun _ => ?_
    simp [textMatches, List.any_eq_true]
  · rw [hred]
    refine List.filter_congr ?_
    intro v _
    simp [textMatches_empty v]
  · rw [hred, List.filter_filter]
    refine List.filter_congr ?_
    intro v _
    simp [Bool.and_comm]

/-- C2 counterexample: with AI search mode on and no search performed yet,
a non-`'ALL'` status filter still excludes records, so the visible list is
not the full store. -/
theorem aiModeAwait_counterexample :
    filteredVideos [vA] "" (some VideoStatus.COMPLETED) none true [] false
      ≠ [vA] := by decide

/-- C2 (amended): in AI mode before any search, only the **text** predicate
is bypassed; the status and category filters still apply, so the view is
the store filtered by status and category, and it equals the full store
exactly when both filters are at their `'ALL'` sentinel. -/
theorem aiModeAwait_filters (videos : List Video) (q : String)
    (sf : Option VideoStatus) (cf : Option VideoCategory) (ids : List String) :
    filteredVideos videos q sf cf true ids false
      = videos.filter (fun v =>
          (match sf with | none => true | some s => v.status == s)
          && (match cf with | none => true | some c => v.category == c))
    ∧ filteredVideos videos q none none true ids false = videos := by
  constructor
  · show videos.filter _ = _
    refine List.filter_congr ?_
    intro v _
    simp
  · show videos.filter _ = _
    rw [List.filter_eq_self]
    intro a _
    rfl

/-- JSON values as produced by the platform parser.  The repository's
records only ever serialize strings, string arrays and objects, but an
endpoint response may be any JSON value. -/
inductive Json where
  | null
  | bool (b : Bool)
  | num (n : Int)
  | str (s : String)
  | arr (elems : List Json)
  | obj (fields : List (String × Json))

/-- JS property access `j.k`: a key lookup on objects, `undefined`
(modelled as `none`) on everything else. -/
def Json.getField? : Json → String → Option Json
  | .obj fields, k => List.lookup k fields
  | _, _ => none

/-- JS truthiness of a JSON value (`undefined` is handled by the caller
through `Option`). -/
def jsTruthy : Json → Bool
  | .null => false
  | .bool b => b
  | .num n => n != 0
  | .str s => s != ""
  | .arr _ => true
  | .obj _ => true

/-- The JS idiom `x || d` applied to a possibly-absent property. -/
def jsOr (x : Option Json) (d : Json) : Json :=
  match x with
  | some v => if jsTruthy v then v else d
  | none => d

/-- The outcome of one `ai.models.generateContent` call: either the promise
rejected (`fail`), or it resolved and `response.text` was `undefined` or
some string. -/
inductive CallOutcome where
  | fail
  | ok (text : Option String)

/-- `{ tags: [], category: '' }`: the default returned by the suggestion
operation on every degradation path. -/
def defaultSuggestion : Json :=
  Json.obj [("tags", Json.arr []), ("category", Json.str "")]

/-- The `try` block of `generateSuggestions` in `geminiService.ts`: a
rejected call or an unparsable body escapes as an error (to be caught), an
empty body returns the default, otherwise the parsed JSON is returned
unvalidated.  The platform `JSON.parse` is passed in as `parse` (`none`
models a parse exception). -/
def generateSuggestionsTry (parse : String → Option Json) :
    CallOutcome → Except Unit Json
  | .fail => .error ()
  | .ok none => .ok defaultSuggestion
  | .ok (some t) =>
    if t = "" then .ok defaultSuggestion
    else
      match parse t with
      | none => .error ()
      | some j => .ok j

/-- `generateSuggestions`: returns the default when the client is not
configured with an API key, and catches every error of the try block into
the same default. -/
def generateSuggestions (parse : String → Option Json) (configured : Bool)
    (outcome : CallOutcome) : Json :=
  if configured then
    match generateSuggestionsTry parse outcome with
    | .ok j => j
    | .error _ => defaultSuggestion
  else defaultSuggestion

/-- The `try` block of `semanticSearchVideos`: the parsed response's `ids`
property, or `[]` when that property is falsy; call/parse failures escape
to the catch. -/
def semanticSearchTry (parse : String → Option Json) :
    CallOutcome → Except Unit Json
  | .fail => .error ()
  | .ok none => .ok (Json.arr [])
  | .ok (some t) =>
    if t = "" then .ok (Json.arr [])
    else
      match parse t with
      | none => .error ()
      | some j => .ok (jsOr (j.getField? "ids") (Json.arr []))

/-- `semanticSearchVideos`: empty result when unconfigured or when the
record list is empty; every caught error also becomes the empty result. -/
def semanticSearchVideos (parse : String → Option Json) (configured : Bool)
    (videos : List Video) (outcome : CallOutcome) : Json :=
  if !configured then Json.arr []
  else if videos.isEmpty then Json.arr []
  else
    match semanticSearchTry parse outcome with
    | .ok j => j
    | .error _ => Json.arr []

/-- C9: the suggestion and semantic-search operations are total (they never
propagate an error): on missing credentials, a rejected call, an empty or
`undefined` response body, or an unparsable body they return the documented
defaults (`{tags: [], category: ''}` and `[]` respectively), and semantic
search also returns `[]` whenever the record list is empty. -/
theorem suggestSearch_neverRaise (parse : String → Option Json) :
    (∀ o, generateSuggestions parse false o = defaultSuggestion)
    ∧ (generateSuggestions parse true .fail = defaultSuggestion)
    ∧ (generateSuggestions parse true (.ok none) = defaultSuggestion)
    ∧ (generateSuggestions parse true (.ok (some "")) = defaultSuggestion)
    ∧ (∀ t : String, t ≠ "" → parse t = none →
        generateSuggestions parse true (.ok (some t)) = defaultSuggestion)
    ∧ (∀ vs o, semanticSearchVideos parse false vs o = Json.arr [])
    ∧ (∀ c o, semanticSearchVideos parse c [] o = Json.arr [])
    ∧ (∀ vs, semanticSearchVideos parse true vs .fail = Json.arr [])
    ∧ (∀ vs, semanticSearchVideos parse true vs (.ok none) = Json.arr [])
    ∧ (∀ vs, semanticSearchVideos parse true vs (.ok (some "")) = Json.arr [])
    ∧ (∀ (vs : List Video) (t : String), t ≠ "" → parse t = none →
        semanticSearchVideos parse true vs (.ok (some t)) = Json.arr []) := by
  refine ⟨fun o => rfl, rfl, rfl, rfl, fun t ht hp => ?_, fun vs o => ?_,
    fun c o => ?_, fun vs => ?_, fun vs => ?_, fun vs => ?_, fun vs t ht hp => ?_⟩
  · simp [generateSuggestions, generateSuggestionsTry, if_neg ht, hp]
  · simp [semanticSearchVideos]
  · cases c <;> simp [semanticSearchVideos]
  · cases hvs : vs.isEmpty <;> simp [semanticSearchVideos, hvs, semanticSearchTry]
  · cases hvs : vs.isEmpty <;> simp [semanticSearchVideos, hvs, semanticSearchTry]
  · cases hvs : vs.isEmpty <;> simp [semanticSearchVideos, hvs, semanticSearchTry]
  · cases hvs : vs.isEmpty <;>
      simp [semanticSearchVideos, hvs, semanticSearchTry, if_neg ht, hp]

theorem suggestSearch_neverRaise_witness :
    ("x" ≠ "" ∧ (fun _ : String => (none : Option Json)) "x" = none)
    ∧ generateSuggestions (fun _ => none) true (.ok (some "x"))
        = defaultSuggestion
    ∧ semanticSearchVideos (fun _ => none) true [vA] (.ok (some "x"))
        = Json.arr [] := by
  refine ⟨⟨by decide, rfl⟩,
    (suggestSearch_neverRaise (fun _ => none)).2.2.2.2.1 "x" (by decide) rfl,
    ?_⟩
  exact (suggestSearch_neverRaise
    (fun _ => none)).2.2.2.2.2.2.2.2.2.2 [vA] "x" (by decide) rfl

/-- JS `String.prototype.replace` with a global pattern and empty
replacement, on character lists: scan left to right, delete each
occurrence of `p`, and never re-scan text adjacent to a deletion.  The
fuel argument (instantiated with the input length) makes the recursion
structural, so the function evaluates inside the kernel. -/
def rmAllF (p : List Char) : Nat → List Char → List Char
  | _, [] => []
  | 0, c :: s => c :: s
  | f + 1, c :: s =>
    if p ≠ [] ∧ p.isPrefixOf (c :: s) then rmAllF p f (s.drop (p.length - 1))
    else c :: rmAllF p f s

/-- `text.replace(pat, '')` with a global pattern, on character lists. -/
def rmAll (p s : List Char) : List Char := rmAllF p s.length s

/-- JS `trimStart` on character lists (the shared ASCII whitespace). -/
def trimStart (l : List Char) : List Char := l.dropWhile Char.isWhitespace

/-- JS `trimEnd` on character lists. -/
def trimEnd (l : List Char) : List Char :=
  (l.reverse.dropWhile Char.isWhitespace).reverse

/-- JS `String.prototype.trim`. -/
def jsTrim (l : List Char) : List Char := trimEnd (trimStart l)

/-- The sanitization in `extractVideoMetadata`:
`text.replace(/```json/g, '').replace(/```/g, '').trim()`. -/
def sanitize (l : List Char) : List Char :=
  jsTrim (rmAll "```".data (rmAll "```json".data l))

/-- `sanitize` on strings. -/
def sanitizeStr (s : String) : String := String.mk (sanitize s.data)

/-- A response body consisting of `s` wrapped in markdown code-fence
markers. -/
def fenceWrap (s : String) : String := "```json\n" ++ s ++ "\n```"

theorem rmAllF_nil (p : List Char) (f : Nat) : rmAllF p f [] = [] := by
  cases f <;> rfl

/-- `rmAllF` does not depend on the fuel once the fuel covers the input
length. -/
theorem rmAllF_fuelEq (p : List Char) :
    ∀ (f₁ f₂ : Nat) (s : List Char), s.length ≤ f₁ → s.length ≤ f₂ →
      rmAllF p f₁ s = rmAllF p f₂ s := by
  intro f₁
  induction f₁ with
  | zero =>
    intro f₂ s h1 _
    have hs : s = [] := List.eq_nil_of_length_eq_zero (Nat.le_zero.mp h1)
    subst hs
    rw [rmAllF_nil, rmAllF_nil]
  | succ f ih =>
    intro f₂ s h1 h2
    cases s with
    | nil => rw [rmAllF_nil, rmAllF_nil]
    | cons c t =>
      cases f₂ with
      | zero =>
        exact absurd h2 (by simp)
      | succ f₂' =>
        simp only [List.length_cons, Nat.add_le_add_iff_right] at h1 h2
        simp only [rmAllF]
        by_cases hc : p ≠ [] ∧ p.isPrefixOf (c :: t)
        · rw [if_pos hc, if_pos hc]
          refine ih f₂' (t.drop (p.length - 1)) ?_ ?_ <;>
            · rw [List.length_drop]; omega
        · rw [if_neg hc, if_neg hc]
          exact congrArg (c :: ·) (ih f₂' t h1 h2)

theorem rmAll_eq_rmAllF (p s : List Char) (f : Nat) (h : s.length ≤ f) :
    rmAll p s = rmAllF p f s :=
  rmAllF_fuelEq p s.length f s Nat.le.refl h

/-- `List.isPrefixOf` on characters agrees with the prefix order. -/
theorem isPreChar (p : List Char) : ∀ l : List Char,
    p.isPrefixOf l = true ↔ p <+: l := by
  induction p with
  | nil =>
    intro l
    simp [ List.nil_prefix]
  | cons a p' ih =>
    intro l
    cases l with
    | nil => simp [List.isPrefixOf]
    | cons b l' =>
      simp [List.isPrefixOf, List.cons_prefix_cons, ih, Bool.and_eq_true,
        beq_iff_eq]

/-- A pattern that does not contain the character `ch` cannot reach across
an occurrence of `ch`: being a prefix of `a ++ ch :: b` is the same as
being a prefix of `a`. -/
theorem prefixThroughCons (p : List Char) (ch : Char) (hch : ch ∉ p)
    (a b : List Char) : p <+: (a ++ ch :: b) ↔ p <+: a := by
  constructor
  · intro h
    rcases le_or_lt p.length a.length with hle | hlt
    · have hp := List.prefix_iff_eq_take.mp h
      rw [List.take_append_of_le_length hle] at hp
      rw [hp]
      exact List.take_prefix _ _
    · exfalso
      have hp := List.prefix_iff_eq_take.mp h
      rw [List.take_append_eq_append_take,
        show p.length - a.length = (p.length - a.length - 1) + 1 from by omega,
        List.take_succ_cons] at hp
      apply hch
      rw [hp]
      simp
  · intro h
    exact h.trans (List.prefix_append a (ch :: b))

/-- The fuelled form of the insulation property: removing all occurrences
of a pattern that does not contain `ch` acts independently on the two
sides of an occurrence of `ch`. -/
theorem rmAllF_append_cons (p : List Char) (hp : p ≠ []) (ch : Char)
    (hch : ch ∉ p) :
    ∀ (f : Nat) (a b : List Char), a.length + (b.length + 1) ≤ f →
      rmAllF p f (a ++ ch :: b) = rmAll p a ++ ch :: rmAll p b := by
  intro f
  induction f with
  | zero =>
    intro a b h
    exact absurd h (by omega)
  | succ f ih =>
    intro a b h
    cases a with
    | nil =>
      have hpre : ¬ (p ≠ [] ∧ p.isPrefixOf (ch :: b)) := by
        rintro ⟨-, hpre⟩
        have hpre' := (isPreChar p (ch :: b)).mp hpre
        cases p with
        | nil => exact hp rfl
        | cons x p' =>
          rw [List.cons_prefix_cons] at hpre'
          cases hpre'.1
          exact hch (List.mem_cons_self _ _)
      simp only [List.nil_append, rmAllF, if_neg hpre]
      have h0 : rmAll p [] = [] := rfl
      rw [h0, List.nil_append]
      refine congrArg (ch :: ·) ?_
      simp only [List.length_nil, Nat.zero_add, Nat.add_le_add_iff_right] at h
      exact (rmAll_eq_rmAllF p b f h).symm
    | cons c a' =>
      simp only [List.cons_append, rmAllF, List.append_eq]
      simp only [List.length_cons] at h
      have hiff : (p ≠ [] ∧ p.isPrefixOf (c :: (a' ++ ch :: b)))
          ↔ (p ≠ [] ∧ p.isPrefixOf (c :: a')) := by
        refine and_congr_right fun _ => ?_
        rw [isPreChar, isPreChar, ← List.cons_append]
        exact prefixThroughCons p ch hch (c :: a') b
      by_cases hc : p ≠ [] ∧ p.isPrefixOf (c :: a')
      · rw [if_pos (hiff.mpr hc)]
        have hplen : p.length ≤ a'.length + 1 := by
          have hpre := (isPreChar p (c :: a')).mp hc.2
          simpa using hpre.length_le
        rw [List.drop_append_of_le_length (by omega)]
        rw [ih (a'.drop (p.length - 1)) b (by rw [List.length_drop]; omega)]
        have hR : rmAll p (c :: a') = rmAll p (a'.drop (p.length - 1)) := by
          rw [rmAll_eq_rmAllF p (c :: a') (a'.length + 1) (by simp)]
          simp only [rmAllF, List.append_eq]
          rw [if_pos hc]
          exact (rmAll_eq_rmAllF p _ a'.length
            (by rw [List.length_drop]; omega)).symm
        rw [hR]
      · rw [if_neg (fun hx => hc (hiff.mp hx))]
        rw [ih a' b (by omega)]
        have hR : rmAll p (c :: a') = c :: rmAll p a' := by
          rw [rmAll_eq_rmAllF p (c :: a') (a'.length + 1) (by simp)]
          simp only [rmAllF, List.append_eq]
          rw [if_neg hc]
          rfl
        rw [hR, List.cons_append]

/-- The insulation property for `rmAll` itself. -/
theorem rmAll_append_cons (p : List Char) (hp : p ≠ []) (ch : Char)
    (hch : ch ∉ p) (a b : List Char) :
    rmAll p (a ++ ch :: b) = rmAll p a ++ ch :: rmAll p b := by
  rw [rmAll, rmAllF_append_cons p hp ch hch (a ++ ch :: b).length a b (by simp)]

/-- Removing a leading occurrence of the pattern itself. -/
theorem rmAll_self_append (p : List Char) (hp : p ≠ []) (t : List Char) :
    rmAll p (p ++ t) = rmAll p t := by
  cases p with
  | nil => exact absurd rfl hp
  | cons c p' =>
    rw [rmAll_eq_rmAllF (c :: p') ((c :: p') ++ t) ((p'.length + t.length) + 1)
      (by simp)]
    simp only [List.cons_append, rmAllF, List.append_eq]
    have hc : (c :: p') ≠ [] ∧ (c :: p').isPrefixOf (c :: (p' ++ t)) := by
      refine ⟨by simp, (isPreChar _ _).mpr ?_⟩
      rw [← List.cons_append]
      exact List.prefix_append _ _
    rw [if_pos hc, show (c :: p').length - 1 = p'.length from by simp,
      List.drop_left]
    exact (rmAll_eq_rmAllF _ t _ (by omega)).symm

theorem trimEnd_append_nl (x : List Char) : trimEnd (x ++ ['\n']) = trimEnd x := by
  simp only [trimEnd, List.reverse_append, List.reverse_cons, List.reverse_nil,
    List.nil_append, List.singleton_append]
  rw [List.dropWhile_cons_of_pos (by decide)]

theorem jsTrim_wrap (x : List Char) : jsTrim ('\n' :: (x ++ ['\n'])) = jsTrim x := by
  show trimEnd (trimStart ('\n' :: (x ++ ['\n']))) = trimEnd (trimStart x)
  rw [show trimStart ('\n' :: (x ++ ['\n'])) = trimStart (x ++ ['\n']) from by
    simp only [trimStart]
    exact List.dropWhile_cons_of_pos (by decide)]
  rw [show trimStart (x ++ ['\n'])
      = if (x.dropWhile Char.isWhitespace).isEmpty
        then List.dropWhile Char.isWhitespace ['\n']
        else x.dropWhile Char.isWhitespace ++ ['\n'] from List.dropWhile_append]
  by_cases hx : (x.dropWhile Char.isWhitespace).isEmpty
  · rw [if_pos hx, show List.dropWhile Char.isWhitespace ['\n'] = [] from by decide]
    have hx' : trimStart x = [] := List.isEmpty_iff.mp hx
    rw [hx']
  · rw [if_neg hx]
    exact trimEnd_append_nl _

/-- Sanitizing a code-fenced body gives the same result as sanitizing the
body alone: the newline characters of the fence insulate the body from the
marker deletions, the fence markers themselves are deleted, and the
leftover newlines are trimmed. -/
theorem sanitize_fence (s : List Char) :
    sanitize ("```json".data ++ '\n' :: (s ++ '\n' :: "```".data))
      = sanitize s := by
  have hp1 : ("```json".data : List Char) ≠ [] := by decide
  have hn1 : '\n' ∉ "```json".data := by decide
  have hp2 : ("```".data : List Char) ≠ [] := by decide
  have hn2 : '\n' ∉ "```".data := by decide
  have h0 : ∀ p : List Char, rmAll p [] = [] := fun _ => rfl
  show jsTrim (rmAll "```".data (rmAll "```json".data _)) = _
  rw [rmAll_self_append _ hp1]
  have e1 := rmAll_append_cons "```json".data hp1 '\n' hn1 []
    (s ++ '\n' :: "```".data)
  simp only [h0, List.nil_append] at e1
  rw [e1, rmAll_append_cons "```json".data hp1 '\n' hn1 s "```".data,
    show rmAll "```json".data "```".data = "```".data from by decide]
  have e2 := rmAll_append_cons "```".data hp2 '\n' hn2 []
    (rmAll "```json".data s ++ '\n' :: "```".data)
  simp only [h0, List.nil_append] at e2
  rw [e2, rmAll_append_cons "```".data hp2 '\n' hn2 _ "```".data,
    show rmAll "```".data "```".data = [] from by decide]
  exact jsTrim_wrap _

/-- `sanitize` at the string level: fencing a response body does not change
the sanitized text. -/
theorem sanitizeStr_fence (s : String) :
    sanitizeStr (fenceWrap s) = sanitizeStr s := by
  have hdata : (fenceWrap s).data
      = "```json".data ++ '\n' :: (s.data ++ '\n' :: "```".data) := by
    show ("```json\n" ++ s ++ "\n```").data = _
    rw [String.data_append, String.data_append,
      show ("```json\n" : String).data = "```json".data ++ ['\n'] from by decide,
      show ("\n```" : String).data = '\n' :: "```".data from by decide]
    simp
  rw [sanitizeStr, hdata, sanitize_fence]
  rfl

/-- The localized user-facing message thrown by `extractVideoMetadata`. -/
def extractErrMsg : String := "无法自动提取视频信息，请手动输入。"

/-- The object returned by a successful metadata extraction.  The source
forwards `title`, `tags` and `notes` from the parsed JSON unvalidated
(defaulting falsy values), while `category` is checked against the closed
enumeration. -/
structure MetaOut where
  title : Json
  category : VideoCategory
  tags : Json
  notes : Json

/-- The normalization applied to the parsed response in
`extractVideoMetadata` when the parsed value is not `null`:
`data.title || ""`, the category membership test with `"其他"` fallback,
`data.tags || []`, `data.notes || ""`.  (JS property access on a non-null
primitive yields `undefined`, modelled by `getField?` returning `none`;
access on `null` throws, and `extractVideoMetadata` routes that case to
its error path instead of applying this function.) -/
def normalizeMeta (j : Json) : MetaOut :=
  { title := jsOr (j.getField? "title") (Json.str "")
    category :=
      match j.getField? "category" with
      | some (.str s) =>
        match categoryFromStr s with
        | some c => c
        | none => .OTHER
      | _ => .OTHER
    tags := jsOr (j.getField? "tags") (Json.arr [])
    notes := jsOr (j.getField? "notes") (Json.str "") }

/-- `extractVideoMetadata` in `geminiService.ts`, for a configured client:
a rejected call, an `undefined` or empty response body, a body that fails
to parse after fence-stripping, and a body that parses to JSON `null` (on
which the `data.title` access throws a `TypeError`) all surface as the
same localized error (the `catch` block rethrows `extractErrMsg`);
otherwise the parsed value is normalized and returned. -/
def extractVideoMetadata (parse : String → Option Json) :
    CallOutcome → Except String MetaOut
  | .fail => .error extractErrMsg
  | .ok none => .error extractErrMsg
  | .ok (some t) =>
    if t = "" then .error extractErrMsg
    else
      match parse (sanitizeStr t) with
      | none => .error extractErrMsg
      | some Json.null => .error extractErrMsg
      | some j => .ok (normalizeMeta j)

/-- A nonempty body whose sanitized text parses to a non-null value is
normalized and returned successfully. -/
theorem extractOk (parse : String → Option Json) (t : String) (j : Json)
    (ht : t ≠ "") (hp : parse (sanitizeStr t) = some j)
    (hnull : j ≠ Json.null) :
    extractVideoMetadata parse (.ok (some t)) = .ok (normalizeMeta j) := by
  cases j with
  | null => exact absurd rfl hnull
  | bool b => simp [extractVideoMetadata, if_neg ht, hp]
  | num n => simp [extractVideoMetadata, if_neg ht, hp]
  | str s => simp [extractVideoMetadata, if_neg ht, hp]
  | arr es => simp [extractVideoMetadata, if_neg ht, hp]
  | obj fs => simp [extractVideoMetadata, if_neg ht, hp]

/-- A nonempty body whose sanitized text fails to parse raises the
localized error. -/
theorem extractErrOfNone (parse : String → Option Json) (t : String)
    (ht : t ≠ "") (hp : parse (sanitizeStr t) = none) :
    extractVideoMetadata parse (.ok (some t)) = .error extractErrMsg := by
  simp [extractVideoMetadata, if_neg ht, hp]

/-- A nonempty body whose sanitized text parses to JSON `null` raises the
localized error: the `data.title` access on `null` throws and the catch
rethrows. -/
theorem extractErrOfNull (parse : String → Option Json) (t : String)
    (ht : t ≠ "") (hp : parse (sanitizeStr t) = some Json.null) :
    extractVideoMetadata parse (.ok (some t)) = .error extractErrMsg := by
  simp [extractVideoMetadata, if_neg ht, hp]

/-- The error characterization at a body whose sanitized text parses to a
non-null value: no error is raised, and no error condition holds. -/
theorem extractNonNullIff (parse : String → Option Json) (t : String)
    (ht : t ≠ "") (j : Json) (hp : parse (sanitizeStr t) = some j)
    (hnull : j ≠ Json.null) :
    ((∃ e, extractVideoMetadata parse (.ok (some t)) = .error e) ↔
      ((.ok (some t) : CallOutcome) = .fail
        ∨ (.ok (some t) : CallOutcome) = .ok none
        ∨ (.ok (some t) : CallOutcome) = .ok (some "")
        ∨ ∃ u, (.ok (some t) : CallOutcome) = .ok (some u) ∧ u ≠ ""
            ∧ (parse (sanitizeStr u) = none
                ∨ parse (sanitizeStr u) = some Json.null))) := by
  constructor
  · rintro ⟨e, he⟩
    rw [extractOk parse t j ht hp hnull] at he
    exact Except.noConfusion he
  · rintro (h | h | h | ⟨u, h1, h2, h3⟩)
    · exact CallOutcome.noConfusion h
    · simp at h
    · simp only [CallOutcome.ok.injEq, Option.some.injEq] at h
      exact absurd h ht
    · simp only [CallOutcome.ok.injEq, Option.some.injEq] at h1
      subst h1
      rcases h3 with h3 | h3
      · rw [hp] at h3
        exact Option.noConfusion h3
      · rw [hp] at h3
        exact absurd (Option.some.inj h3) hnull

/-- C8 counterexample to the original error enumeration: the response body
`"null"` is nonempty and parses successfully (it is valid JSON), yet the
operation raises the localized error, because the `data.title` access on
the parsed `null` throws and the catch rethrows. -/
theorem extractMetadata_null_counterexample :
    ("null" : String) ≠ ""
    ∧ (fun t => if t = "null" then some Json.null else none)
        (sanitizeStr "null") = some Json.null
    ∧ extractVideoMetadata
        (fun t => if t = "null" then some Json.null else none)
        (.ok (some "null")) = .error extractErrMsg := by
  exact ⟨by decide, rfl, rfl⟩

/-- C8 (amended): metadata extraction (i) treats a code-fenced body
exactly like the bare body, (ii) on every non-null parsed response coerces
a category that is absent or outside the closed enumeration to the `"其他"`
value, and (iii) raises an error — always with the localized message —
exactly when the call fails, the response body is empty or `undefined`,
the body is unparsable, or the body parses to JSON `null` (whose field
access throws); it never silently degrades. -/
theorem extractMetadata_spec (parse : String → Option Json) :
    (∀ s : String, s ≠ "" →
        extractVideoMetadata parse (.ok (some (fenceWrap s)))
          = extractVideoMetadata parse (.ok (some s)))
    ∧ (∀ (t : String) (j : Json), t ≠ "" → parse (sanitizeStr t) = some j →
        j ≠ Json.null →
        extractVideoMetadata parse (.ok (some t)) = .ok (normalizeMeta j))
    ∧ (∀ (j : Json) (s : String), j ≠ Json.null →
        j.getField? "category" = some (.str s) →
        categoryFromStr s = none → (normalizeMeta j).category = .OTHER)
    ∧ (∀ j : Json, j ≠ Json.null → j.getField? "category" = none →
        (normalizeMeta j).category = .OTHER)
    ∧ (∀ o : CallOutcome, (∃ e, extractVideoMetadata parse o = .error e) ↔
        (o = .fail ∨ o = .ok none ∨ o = .ok (some "")
          ∨ ∃ t, o = .ok (some t) ∧ t ≠ ""
              ∧ (parse (sanitizeStr t) = none
                  ∨ parse (sanitizeStr t) = some Json.null)))
    ∧ (∀ (o : CallOutcome) (e : String),
        extractVideoMetadata parse o = .error e → e = extractErrMsg) := by
  refine ⟨fun s hs => ?_,
    fun t j ht hp hnull => extractOk parse t j ht hp hnull,
    fun j s _ hf hc => ?_, fun j _ hf => ?_, fun o => ?_, fun o e he => ?_⟩
  · have hne : fenceWrap s ≠ "" := by
      intro h
      have h2 : (fenceWrap s).data = [] := by rw [h]
      rw [show (fenceWrap s).data
          = "```json\n".data ++ (s.data ++ "\n```".data) from by
        show (("```json\n" ++ s) ++ "\n```").data = _
        rw [String.data_append, String.data_append, List.append_assoc]] at h2
      have h3 : ("```json\n".data : List Char) = [] :=
        (List.append_eq_nil.mp h2).1
      exact absurd h3 (by decide)
    simp only [extractVideoMetadata, if_neg hne, if_neg hs, sanitizeStr_fence]
  · simp only [normalizeMeta, hf, hc]
  · simp only [normalizeMeta, hf]
  · cases o with
    | fail => simp [extractVideoMetadata]
    | ok text =>
      cases text with
      | none => simp [extractVideoMetadata]
      | some t =>
        by_cases ht : t = ""
        · subst ht
          simp [extractVideoMetadata]
        · cases hp : parse (sanitizeStr t) with
          | none =>
            exact ⟨fun _ => Or.inr (Or.inr (Or.inr ⟨t, rfl, ht, Or.inl hp⟩)),
              fun _ => ⟨extractErrMsg, extractErrOfNone parse t ht hp⟩⟩
          | some j =>
            cases j with
            | null =>
              exact ⟨fun _ => Or.inr (Or.inr (Or.inr ⟨t, rfl, ht, Or.inr hp⟩)),
                fun _ => ⟨extractErrMsg, extractErrOfNull parse t ht hp⟩⟩
            | bool b =>
              exact extractNonNullIff parse t ht _ hp fun h => Json.noConfusion h
            | num n =>
              exact extractNonNullIff parse t ht _ hp fun h => Json.noConfusion h
            | str s =>
              exact extractNonNullIff parse t ht _ hp fun h => Json.noConfusion h
            | arr es =>
              exact extractNonNullIff parse t ht _ hp fun h => Json.noConfusion h
            | obj fs =>
              exact extractNonNullIff parse t ht _ hp fun h => Json.noConfusion h
  · cases o with
    | fail => exact (Except.error.inj he).symm
    | ok text =>
      cases text with
      | none => exact (Except.error.inj he).symm
      | some t =>
        by_cases ht : t = ""
        · subst ht
          simp only [extractVideoMetadata, if_pos rfl] at he
          exact (Except.error.inj he).symm
        · cases hp : parse (sanitizeStr t) with
          | none =>
            rw [extractErrOfNone parse t ht hp] at he
            exact (Except.error.inj he).symm
          | some j =>
            cases j with
            | null =>
              rw [extractErrOfNull parse t ht hp] at he
              exact (Except.error.inj he).symm
            | bool b =>
              rw [extractOk parse t _ ht hp fun h => Json.noConfusion h] at he
              exact Except.noConfusion he
            | num n =>
              rw [extractOk parse t _ ht hp fun h => Json.noConfusion h] at he
              exact Except.noConfusion he
            | str s =>
              rw [extractOk parse t _ ht hp fun h => Json.noConfusion h] at he
              exact Except.noConfusion he
            | arr es =>
              rw [extractOk parse t _ ht hp fun h => Json.noConfusion h] at he
              exact Except.noConfusion he
            | obj fs =>
              rw [extractOk parse t _ ht hp fun h => Json.noConfusion h] at he
              exact Except.noConfusion he

theorem extractMetadata_spec_witness :
    ("[1, 2]" ≠ ""
      ∧ extractVideoMetadata (fun _ => none) (.ok (some (fenceWrap "[1, 2]")))
          = extractVideoMetadata (fun _ => none) (.ok (some "[1, 2]")))
    ∧ (normalizeMeta (Json.obj [("category", Json.str "nope")])).category
        = VideoCategory.OTHER := by
  refine ⟨⟨by decide,
    (extractMetadata_spec (fun _ => none)).1 "[1, 2]" (by decide)⟩, ?_⟩
  exact (extractMetadata_spec (fun _ => none)).2.2.1
    (Json.obj [("category", Json.str "nope")]) "nope"
    (fun h => Json.noConfusion h) rfl (by decide)

/-- Read a parsed JSON array back as a string list (the element shape the
store's records serialize to). -/
def strListFromJsonAux : List Json → Option (List String)
  | [] => some []
  | .str s :: rest => (strListFromJsonAux rest).map (fun l => s :: l)
  | _ :: _ => none

/-- The JSON object `JSON.stringify` produces for one record: every field
is a string or a string array, enum fields carry their backing string, and
an absent optional `aiSummary` is omitted from the object (stringify drops
`undefined` properties). -/
def videoToJson (v : Video) : Json :=
  Json.obj (
    [("title", Json.str v.title), ("url", Json.str v.url),
     ("tags", Json.arr (v.tags.map Json.str)),
     ("category", Json.str (categoryToStr v.category)),
     ("status", Json.str (statusToStr v.status)),
     ("notes", Json.str v.notes),
     ("id", Json.str v.id), ("addedAt", Json.str v.addedAt)]
    ++ (match v.aiSummary with
        | none => []
        | some s => [("aiSummary", Json.str s)]))

/-- Reading a parsed JSON object back as a record (the rehydration path in
`App.tsx` uses the parsed value as-is; this function states which shape
that use relies on). -/
def videoFromJson? (j : Json) : Option Video :=
  match j.getField? "id", j.getField? "title", j.getField? "url",
      j.getField? "tags", j.getField? "category", j.getField? "status",
      j.getField? "addedAt", j.getField? "notes" with
  | some (.str id), some (.str title), some (.str url), some tagsJ,
      some (.str cat), some (.str st), some (.str addedAt),
      some (.str notes) =>
    match tagsJ, categoryFromStr cat, statusFromStr st with
    | .arr es, some c, some stv =>
      (strListFromJsonAux es).map (fun tags =>
        { id := id, title := title, url := url, tags := tags,
          category := c, status := stv, addedAt := addedAt, notes := notes,
          aiSummary :=
            match j.getField? "aiSummary" with
            | some (.str a) => some a
            | _ => none })
    | _, _, _ => none
  | _, _, _, _, _, _, _, _ => none

/-- The persisted form of the whole store: one JSON array, in list order. -/
def videoListToJson (vs : List Video) : Json := Json.arr (vs.map videoToJson)

/-- Rehydrate every element of a parsed JSON array. -/
def videoListFromJsonAux : List Json → Option (List Video)
  | [] => some []
  | j :: rest =>
    match videoFromJson? j, videoListFromJsonAux rest with
    | some v, some vs => some (v :: vs)
    | _, _ => none

/-- Rehydrate the persisted value. -/
def videoListFromJson? : Json → Option (List Video)
  | .arr es => videoListFromJsonAux es
  | _ => none

theorem statusRoundtrip (s : VideoStatus) :
    statusFromStr (statusToStr s) = some s := by
  cases s <;> rfl

theorem categoryRoundtrip (c : VideoCategory) :
    categoryFromStr (categoryToStr c) = some c := by
  cases c <;> rfl

theorem strListRoundtrip (l : List String) :
    strListFromJsonAux (l.map Json.str) = some l := by
  induction l with
  | nil => rfl
  | cons s t ih => simp [strListFromJsonAux, ih]

/-- One record survives the serialize/rehydrate pair field for field. -/
theorem videoRoundtrip (v : Video) :
    videoFromJson? (videoToJson v) = some v := by
  cases v with
  | mk id title url tags category status addedAt notes aiSummary =>
    cases aiSummary with
    | none =>
      simp [videoToJson, videoFromJson?, Json.getField?, List.lookup,
        strListRoundtrip, categoryRoundtrip, statusRoundtrip]
    | some a =>
      simp [videoToJson, videoFromJson?, Json.getField?, List.lookup,
        strListRoundtrip, categoryRoundtrip, statusRoundtrip]

/-- C7: serializing the full record list to its persisted JSON form and
rehydrating it reproduces the original list, field for field and in the
same order.  (`JSON.stringify`/`JSON.parse` themselves are the platform's
inverse pair on JSON trees; the repository-specific content is that the
records are exactly JSON-representable, with the optional summary field
omitted when absent.) -/
theorem persist_roundtrip (vs : List Video) :
    videoListFromJson? (videoListToJson vs) = some vs := by
  show videoListFromJsonAux (vs.map videoToJson) = some vs
  induction vs with
  | nil => rfl
  | cons v rest ih => simp [videoListFromJsonAux, videoRoundtrip, ih]
